import Mathlib

/-!
Verification development for the structure-analysis core of a music
segmentation program (`segmenter.py`): boundary detection by a greedy
cost scan over candidate segment counts, likelihood-penalized segment
costs, spectral embeddings of graph Laplacians, affinity construction
and deterministic section naming.

Pure fragments of the program are shallowly embedded as Lean functions.
Calls into external numerical libraries (`librosa.segment.agglomerative`,
`librosa.segment.recurrence_matrix`, `scipy.linalg.eig`) are modelled as
oracle parameters, constrained only by hypotheses reflecting the
documented behaviour of those routines (e.g. "agglomerative clustering
returns frame indices within the input's frame range").
-/

namespace Segmenter

/-- The candidate segment counts scanned by `get_segments`:
Python's `range(kmax, kmin, -1)`, i.e. `kmax, kmax - 1, ..., kmin + 1`
(empty when `kmax ≤ kmin`). -/
def candidates (kmin kmax : ℕ) : List ℕ :=
  (List.range' (kmin + 1) (kmax - kmin)).reverse

/-- The scan loop of `get_segments`.  `f` abstracts `get_k_segments`,
returning for each candidate count `k` the boundary list and its cost.
The running best cost is an `Option`: `none` models the initial
`cost_min = np.inf`, against which the comparison `cost <= cost_min`
always succeeds. -/
def scan_ks {α : Type} [LinearOrder α] (f : ℕ → List ℕ × α) :
    List ℕ → Option α → List ℕ → List ℕ
  | [], _, sBest => sBest
  | k :: rest, none, _ => scan_ks f rest (some (f k).2) (f k).1
  | k :: rest, some b, sBest =>
    if (f k).2 ≤ b then scan_ks f rest (some (f k).2) (f k).1 else sBest

/-- `get_segments`, with `get_k_segments` abstracted to the oracle `f`:
initialize `cost_min = np.inf`, `S_best = []`, scan `range(kmax, kmin, -1)`,
accept whenever `cost <= cost_min`, break at the first rejection. -/
def get_segments {α : Type} [LinearOrder α]
    (f : ℕ → List ℕ × α) (kmin kmax : ℕ) : List ℕ :=
  scan_ks f (candidates kmin kmax) none []

theorem candidates_length (kmin kmax : ℕ) :
    (candidates kmin kmax).length = kmax - kmin := by
  simp [candidates]

theorem candidates_head (kmin kmax : ℕ) (h : kmin < kmax) :
    (candidates kmin kmax).head? = some kmax := by
  unfold candidates
  rw [List.head?_reverse]
  obtain ⟨m, hm⟩ : ∃ m, kmax - kmin = m + 1 := ⟨kmax - kmin - 1, by omega⟩
  rw [hm, List.range'_concat, List.getLast?_concat]
  congr 1
  omega

theorem candidates_getLast (kmin kmax : ℕ) (h : kmin < kmax) :
    (candidates kmin kmax).getLast? = some (kmin + 1) := by
  unfold candidates
  rw [List.getLast?_reverse]
  obtain ⟨m, hm⟩ : ∃ m, kmax - kmin = m + 1 := ⟨kmax - kmin - 1, by omega⟩
  rw [hm, List.range'_succ]
  rfl

theorem candidates_strict_desc (kmin kmax : ℕ) :
    List.Pairwise (fun a b => b < a) (candidates kmin kmax) := by
  unfold candidates
  rw [List.pairwise_reverse]
  exact List.pairwise_lt_range' _ _

theorem candidates_mem (kmin kmax k : ℕ) :
    k ∈ candidates kmin kmax ↔ kmin < k ∧ k ≤ kmax := by
  unfold candidates
  rw [List.mem_reverse, List.mem_range'_1]
  omega

/-- Behaviour of the scan loop from an arbitrary finite best cost:
either the very first candidate is rejected and the incumbent is kept,
or the result is the candidate at the end of the longest accepted
(non-increasing, starting below `b`) prefix. -/
theorem scan_ks_spec {α : Type} [LinearOrder α] (f : ℕ → List ℕ × α) :
    ∀ (ks : List ℕ) (b : α) (sBest : List ℕ),
      (scan_ks f ks (some b) sBest = sBest ∧
        (ks ≠ [] → b < (f (ks.getD 0 0)).2)) ∨
      (∃ j, j < ks.length ∧ (f (ks.getD 0 0)).2 ≤ b ∧
        (∀ i, i + 1 ≤ j → (f (ks.getD (i + 1) 0)).2 ≤ (f (ks.getD i 0)).2) ∧
        (j + 1 < ks.length → (f (ks.getD j 0)).2 < (f (ks.getD (j + 1) 0)).2) ∧
        scan_ks f ks (some b) sBest = (f (ks.getD j 0)).1) := by
  intro ks
  induction ks with
  | nil =>
    intro b sBest
    exact Or.inl ⟨rfl, fun h => absurd rfl h⟩
  | cons k rest ih =>
    intro b sBest
    by_cases hle : (f k).2 ≤ b
    · right
      have hstep : scan_ks f (k :: rest) (some b) sBest
          = scan_ks f rest (some (f k).2) (f k).1 := by
        simp [scan_ks, hle]
      rcases ih (f k).2 (f k).1 with ⟨heq, hstop⟩ | ⟨j, hj, hfirst, hchain, hstop, heq⟩
      · refine ⟨0, by simp, by simpa using hle, fun i hi => by omega, ?_, ?_⟩
        · intro hlen
          have hne : rest ≠ [] := by
            intro hnil
            simp [hnil] at hlen
          simpa using hstop hne
        · rw [hstep, heq]
          simp
      · refine ⟨j + 1, by simpa using hj, by simpa using hle, ?_, ?_, ?_⟩
        · intro i hi
          match i with
          | 0 =>
            simpa using hfirst
          | i' + 1 =>
            have := hchain i' (by omega)
            simpa using this
        · intro hlen
          have := hstop (by simpa using hlen)
          simpa using this
        · rw [hstep, heq]
          simp
    · left
      constructor
      · simp [scan_ks, hle]
      · intro _
        simpa using lt_of_not_le hle

/-- If every candidate's cost is no greater than its predecessor's and the
first cost is below the incumbent, the scan accepts everything and returns
the last candidate's boundaries. -/
theorem scan_ks_all_accept {α : Type} [LinearOrder α] (f : ℕ → List ℕ × α) :
    ∀ (ks : List ℕ) (b : α) (sBest : List ℕ) (hne : ks ≠ [])
      (hfirst : (f (ks.getD 0 0)).2 ≤ b)
      (hchain : List.Chain' (fun a c => (f c).2 ≤ (f a).2) ks),
      scan_ks f ks (some b) sBest = (f (ks.getLast hne)).1 := by
  intro ks
  induction ks with
  | nil =>
    intro b sBest hne
    exact absurd rfl hne
  | cons k rest ih =>
    intro b sBest hne hfirst hchain
    have hle : (f k).2 ≤ b := by simpa using hfirst
    have hstep : scan_ks f (k :: rest) (some b) sBest
        = scan_ks f rest (some (f k).2) (f k).1 := by
      simp [scan_ks, hle]
    match rest with
    | [] =>
      rw [hstep]
      simp [scan_ks]
    | k' :: rest' =>
      have hchain' := List.chain'_cons.mp hchain
      have := ih (f k).2 (f k).1 (by simp) (by simpa using hchain'.1) hchain'.2
      rw [hstep, this]
      simp [List.getLast]

/-- C1: for all cost oracles and bounds `kmin < kmax`, `get_segments` scans
the candidate counts in strictly decreasing order starting at `kmax`,
starts from best cost `+∞` (so the first candidate is always accepted),
accepts a candidate exactly when its cost is `≤` the current best (a tie
replaces the incumbent with the lower-`k` candidate), stops the scan at the
first candidate whose cost strictly exceeds the current best, and returns
the last accepted boundary set: the boundaries of the candidate ending the
longest non-increasing prefix of the cost sequence. -/
theorem get_segments_greedy_stop {α : Type} [LinearOrder α]
    (f : ℕ → List ℕ × α) (kmin kmax : ℕ) (h : kmin < kmax) :
    (candidates kmin kmax).head? = some kmax ∧
    List.Pairwise (fun a b => b < a) (candidates kmin kmax) ∧
    ∃ j, j < (candidates kmin kmax).length ∧
      (∀ i, i + 1 ≤ j →
        (f ((candidates kmin kmax).getD (i + 1) 0)).2
          ≤ (f ((candidates kmin kmax).getD i 0)).2) ∧
      (j + 1 < (candidates kmin kmax).length →
        (f ((candidates kmin kmax).getD j 0)).2
          < (f ((candidates kmin kmax).getD (j + 1) 0)).2) ∧
      get_segments f kmin kmax = (f ((candidates kmin kmax).getD j 0)).1 := by
  refine ⟨candidates_head _ _ h, candidates_strict_desc _ _, ?_⟩
  have hlen : 0 < (candidates kmin kmax).length := by
    rw [candidates_length]
    omega
  obtain ⟨k, rest, hks⟩ : ∃ k rest, candidates kmin kmax = k :: rest := by
    match hc : candidates kmin kmax with
    | [] => rw [hc] at hlen; simp at hlen
    | k :: rest => exact ⟨k, rest, rfl⟩
  rw [hks]
  have hstep : get_segments f kmin kmax = scan_ks f rest (some (f k).2) (f k).1 := by
    rw [get_segments, hks]
    simp [scan_ks]
  rcases scan_ks_spec f rest (f k).2 (f k).1 with
    ⟨heq, hstop⟩ | ⟨j, hj, hfirst, hchain, hstop, heq⟩
  · refine ⟨0, by simp, fun i hi => by omega, ?_, ?_⟩
    · intro hl
      have hne : rest ≠ [] := by
        intro hnil
        rw [hnil] at hl
        simp at hl
      simpa using hstop hne
    · rw [hstep, heq]
      simp
  · refine ⟨j + 1, by simpa using hj, ?_, ?_, ?_⟩
    · intro i hi
      match i with
      | 0 => simpa using hfirst
      | i' + 1 => simpa using hchain i' (by omega)
    · intro hl
      simpa using hstop (by simpa using hl)
    · rw [hstep, heq]
      simp

/-- Witness for C1: `kmin = 2 < kmax = 4` with the concrete cost table
`k ↦ k` (costs non-increasing along the scan). -/
theorem get_segments_greedy_stop_witness :
    2 < 4 ∧
    ((candidates 2 4).head? = some 4 ∧
     List.Pairwise (fun a b => b < a) (candidates 2 4) ∧
     ∃ j, j < (candidates 2 4).length ∧
       (∀ i, i + 1 ≤ j →
         ((fun k => (([k] : List ℕ), (k : ℚ))) ((candidates 2 4).getD (i + 1) 0)).2
           ≤ ((fun k => (([k] : List ℕ), (k : ℚ))) ((candidates 2 4).getD i 0)).2) ∧
       (j + 1 < (candidates 2 4).length →
         ((fun k => (([k] : List ℕ), (k : ℚ))) ((candidates 2 4).getD j 0)).2
           < ((fun k => (([k] : List ℕ), (k : ℚ))) ((candidates 2 4).getD (j + 1) 0)).2) ∧
       get_segments (fun k => (([k] : List ℕ), (k : ℚ))) 2 4
         = ((fun k => (([k] : List ℕ), (k : ℚ))) ((candidates 2 4).getD j 0)).1) :=
  ⟨by norm_num,
    get_segments_greedy_stop (fun k => (([k] : List ℕ), (k : ℚ))) 2 4 (by norm_num)⟩

/-- C3 counterexample: with `kmin = 2 < kmax = 4` the evaluated candidate
list is `[4, 3]`: `k = kmin = 2` is never evaluated, and even on a cost
sequence that is non-increasing over the whole scan (no early stop) the
result is the `k = 3` boundary set, not the `k = kmin` one. -/
theorem candidates_exclude_kmin :
    candidates 2 4 = [4, 3] ∧ (2 : ℕ) ∉ candidates 2 4 ∧
    get_segments (fun k => ([k], (k : ℚ))) 2 4 = [3] :=
  ⟨by decide, by decide, by decide⟩

/-- C3 amended: the candidate range is inclusive at the top but exclusive
at the bottom: `get_segments` evaluates exactly the candidates `k` with
`kmin < k ≤ kmax`, and when no early stop occurs (cost non-increasing over
the whole scan) the returned boundary set is the one for `k = kmin + 1`;
`k = kmin` itself is never evaluated. -/
theorem get_segments_bottom_exclusive {α : Type} [LinearOrder α]
    (f : ℕ → List ℕ × α) (kmin kmax : ℕ) (h : kmin < kmax)
    (hmono : List.Chain' (fun a c => (f c).2 ≤ (f a).2) (candidates kmin kmax)) :
    (∀ k, k ∈ candidates kmin kmax ↔ kmin < k ∧ k ≤ kmax) ∧
    get_segments f kmin kmax = (f (kmin + 1)).1 := by
  refine ⟨fun k => candidates_mem kmin kmax k, ?_⟩
  have hlen : 0 < (candidates kmin kmax).length := by
    rw [candidates_length]
    omega
  obtain ⟨k, rest, hks⟩ : ∃ k rest, candidates kmin kmax = k :: rest := by
    match hc : candidates kmin kmax with
    | [] => rw [hc] at hlen; simp at hlen
    | k :: rest => exact ⟨k, rest, rfl⟩
  have hstep : get_segments f kmin kmax = scan_ks f rest (some (f k).2) (f k).1 := by
    rw [get_segments, hks]
    simp [scan_ks]
  have hlast : (candidates kmin kmax).getLast? = some (kmin + 1) :=
    candidates_getLast kmin kmax h
  cases rest with
  | nil =>
    rw [hstep]
    have hk : k = kmin + 1 := by
      rw [hks] at hlast
      simpa using hlast
    simp [scan_ks, hk]
  | cons r rest' =>
    rw [hks] at hmono
    have hchain := List.chain'_cons.mp hmono
    have hne : r :: rest' ≠ [] := by simp
    have hall := scan_ks_all_accept f (r :: rest') (f k).2 (f k).1 hne
      (by simpa using hchain.1) hchain.2
    rw [hstep, hall]
    have hlk : (r :: rest').getLast hne = kmin + 1 := by
      rw [hks] at hlast
      rw [List.getLast?_cons_cons, List.getLast?_eq_getLast _ hne] at hlast
      simpa using hlast
    rw [hlk]

/-- Witness for the amended C3 at `kmin = 2 < kmax = 4` with the cost table
`k ↦ k`, non-increasing along the scan `[4, 3]`. -/
theorem get_segments_bottom_exclusive_witness :
    2 < 4 ∧
    List.Chain' (fun a c => ((fun k => (([k] : List ℕ), (k : ℚ))) c).2
      ≤ ((fun k => (([k] : List ℕ), (k : ℚ))) a).2) (candidates 2 4) ∧
    ((∀ k, k ∈ candidates 2 4 ↔ 2 < k ∧ k ≤ 4) ∧
     get_segments (fun k => (([k] : List ℕ), (k : ℚ))) 2 4
       = ((fun k => (([k] : List ℕ), (k : ℚ))) (2 + 1)).1) := by
  have hchain : List.Chain' (fun a c => ((fun k => (([k] : List ℕ), (k : ℚ))) c).2
      ≤ ((fun k => (([k] : List ℕ), (k : ℚ))) a).2) (candidates 2 4) := by
    rw [show candidates 2 4 = [4, 3] from by decide]
    refine List.chain'_cons.mpr ⟨by norm_num, by simp⟩
  exact ⟨by norm_num, hchain,
    get_segments_bottom_exclusive (fun k => (([k] : List ℕ), (k : ℚ))) 2 4
      (by norm_num) hchain⟩

/-- `np.unique`: the sorted list of distinct values of a list. -/
def np_unique (l : List ℕ) : List ℕ :=
  l.toFinset.sort (· ≤ ·)

/-- The boundary list built by `get_k_segments`:
`np.unique(np.concatenate(([0], boundaries, [N])))`, where `boundaries`
is the output of `librosa.segment.agglomerative` on `X_bound` (modelled
as an oracle list of frame indices) and `N = X_bound.shape[1]`. -/
def get_k_segments_boundaries (agglo : List ℕ) (N : ℕ) : List ℕ :=
  np_unique (0 :: (agglo ++ [N]))

theorem sorted_head?_eq {l : List ℕ} {x : ℕ} (hs : List.Sorted (· ≤ ·) l)
    (hx : x ∈ l) (hmin : ∀ y ∈ l, x ≤ y) : l.head? = some x := by
  cases l with
  | nil => simp at hx
  | cons a t =>
    have h1 : x ≤ a := hmin a (by simp)
    have h2 : a ≤ x := by
      rcases List.mem_cons.mp hx with h | h
      · omega
      · exact (List.sorted_cons.mp hs).1 x h
    have : a = x := le_antisymm h2 h1
    simp [this]

theorem sorted_getLast?_eq : ∀ (l : List ℕ) (x : ℕ),
    List.Sorted (· ≤ ·) l → x ∈ l → (∀ y ∈ l, y ≤ x) → l.getLast? = some x
  | [], x, _, hx, _ => by simp at hx
  | [a], x, _, hx, _ => by
    have : x = a := by simpa using hx
    simp [this]
  | a :: b :: t, x, hs, hx, hmax => by
    rw [List.getLast?_cons_cons]
    have hs' := (List.sorted_cons.mp hs).2
    have hmem : x ∈ b :: t := by
      rcases List.mem_cons.mp hx with h | h
      · have hab : a ≤ b := (List.sorted_cons.mp hs).1 b (by simp)
        subst h
        have hbx : b ≤ x := hmax b (by simp)
        rw [le_antisymm hbx hab]
        simp
      · exact h
    exact sorted_getLast?_eq (b :: t) x hs' hmem (fun y hy => hmax y (by simp [hy]))

/-- C2: the boundary list returned by `get_k_segments` starts with 0, ends
with `N`, and is strictly increasing (hence duplicate-free), for every
output of the agglomerative-clustering oracle whose entries are frame
indices `≤ N`. -/
theorem get_k_segments_boundaries_sandwich (agglo : List ℕ) (N : ℕ)
    (hb : ∀ b ∈ agglo, b ≤ N) (hN : 2 ≤ N) :
    (get_k_segments_boundaries agglo N).head? = some 0 ∧
    (get_k_segments_boundaries agglo N).getLast? = some N ∧
    List.Sorted (· < ·) (get_k_segments_boundaries agglo N) ∧
    (get_k_segments_boundaries agglo N).Nodup := by
  have hsorted : List.Sorted (· ≤ ·) (get_k_segments_boundaries agglo N) := by
    unfold get_k_segments_boundaries np_unique
    exact Finset.sort_sorted _ _
  have hnodup : (get_k_segments_boundaries agglo N).Nodup := by
    unfold get_k_segments_boundaries np_unique
    exact Finset.sort_nodup _ _
  have hmem : ∀ y, y ∈ get_k_segments_boundaries agglo N ↔ y ∈ 0 :: (agglo ++ [N]) := by
    intro y
    rw [get_k_segments_boundaries, np_unique, Finset.mem_sort, List.mem_toFinset]
  refine ⟨?_, ?_, hsorted.lt_of_le hnodup, hnodup⟩
  · exact sorted_head?_eq hsorted ((hmem 0).mpr (by simp)) (fun y _ => Nat.zero_le y)
  · refine sorted_getLast?_eq _ _ hsorted ((hmem N).mpr (by simp)) ?_
    intro y hy
    rcases List.mem_cons.mp ((hmem y).mp hy) with h | h
    · omega
    · rcases List.mem_append.mp h with h2 | h2
      · exact hb y h2
      · simp at h2
        omega

/-- Witness for C2 with the oracle boundaries `[3, 7]` and `N = 10`. -/
theorem get_k_segments_boundaries_sandwich_witness :
    (∀ b ∈ ([3, 7] : List ℕ), b ≤ 10) ∧ 2 ≤ 10 ∧
    ((get_k_segments_boundaries [3, 7] 10).head? = some 0 ∧
     (get_k_segments_boundaries [3, 7] 10).getLast? = some 10 ∧
     List.Sorted (· < ·) (get_k_segments_boundaries [3, 7] 10) ∧
     (get_k_segments_boundaries [3, 7] 10).Nodup) :=
  ⟨by decide, by decide,
    get_k_segments_boundaries_sandwich [3, 7] 10 (by decide) (by decide)⟩

/-- `string.ascii_uppercase`. -/
def ascii_uppercase : List Char := "ABCDEFGHIJKLMNOPQRSTUVWXYZ".toList

/-- `string.ascii_lowercase`. -/
def ascii_lowercase : List Char := "abcdefghijklmnopqrstuvwxyz".toList

/-- `SEGMENT_NAMES`: the single uppercase letters followed, for each
uppercase `x`, by the two-character strings `x ++ y` over all lowercase
`y` — exactly what the module-level loop builds. -/
def SEGMENT_NAMES : List String :=
  ascii_uppercase.map (fun c => String.mk [c]) ++
  ascii_uppercase.flatMap (fun x => ascii_lowercase.map (fun y => String.mk [x, y]))

theorem segment_names_nodup : SEGMENT_NAMES.Nodup := by
  have hU : ascii_uppercase.Nodup := by decide
  have hL : ascii_lowercase.Nodup := by decide
  have h1 : (ascii_uppercase.map (fun c => String.mk [c])).Nodup := by
    refine List.Nodup.map ?_ hU
    intro a b hab
    have := congrArg String.data hab
    simpa using this
  have h2 : (ascii_uppercase.flatMap
      (fun x => ascii_lowercase.map (fun y => String.mk [x, y]))).Nodup := by
    rw [List.nodup_flatMap]
    constructor
    · intro x _
      refine List.Nodup.map ?_ hL
      intro a b hab
      have := congrArg String.data hab
      simpa using this
    · refine hU.imp ?_
      intro a b hab s hsa hsb
      obtain ⟨y, _, rfl⟩ := List.mem_map.mp hsa
      obtain ⟨y', _, hEq⟩ := List.mem_map.mp hsb
      have := congrArg String.data hEq
      simp at this
      exact hab this.1.symm
  refine h1.append h2 ?_
  intro s hs1 hs2
  obtain ⟨c, _, rfl⟩ := List.mem_map.mp hs1
  obtain ⟨x, _, hsx⟩ := List.mem_flatMap.mp hs2
  obtain ⟨y, _, hEq⟩ := List.mem_map.mp hsx
  have := congrArg String.data hEq
  simp at this

set_option maxRecDepth 100000 in
/-- C6 counterexample: the name sequence is a finite list of exactly
702 names (26 single letters plus 26·26 two-letter combinations); index
10000 has no name, so the sequence is neither defined over all of
0…10000 nor unbounded. -/
theorem segment_names_not_unbounded :
    SEGMENT_NAMES.length = 702 ∧ SEGMENT_NAMES[10000]? = none :=
  ⟨by decide, by decide⟩

set_option maxRecDepth 100000 in
/-- C6 amended: `name(0) = "A"`, `name(25) = "Z"`, `name(26) = "Aa"`,
`name(27) = "Ab"`, and all names in the sequence are pairwise distinct,
so each raw cluster id up to 701 receives a defined, distinct name; the
sequence however is finite, with exactly 702 entries — indices ≥ 702 have
no name (an out-of-range lookup in `label_segments`), so it is not
unbounded. -/
theorem segment_names_spec :
    SEGMENT_NAMES[0]? = some "A" ∧ SEGMENT_NAMES[25]? = some "Z" ∧
    SEGMENT_NAMES[26]? = some "Aa" ∧ SEGMENT_NAMES[27]? = some "Ab" ∧
    SEGMENT_NAMES.length = 702 ∧ SEGMENT_NAMES.Nodup :=
  ⟨by decide, by decide, by decide, by decide, by decide, segment_names_nodup⟩

/-- The clamp `label_segments` applies to the estimated cluster count
before spectral clustering: `n_labels = min(len(A) - 1, max(2, n_labels))`. -/
def label_segments_n_labels (n_segments n_estimated : ℕ) : ℕ :=
  min (n_segments - 1) (max 2 n_estimated)

/-- C7 counterexample: over `n_segments = 2` segments the clamped cluster
count is 1, which does not lie in `[2, n_segments − 1]`. -/
theorem label_segments_n_labels_two_segments :
    label_segments_n_labels 2 1 = 1 ∧ ¬ 2 ≤ label_segments_n_labels 2 1 :=
  ⟨by decide, by decide⟩

/-- C7 amended: the cluster count passed to spectral clustering equals
`min(n_segments − 1, max(2, estimate))`, silently (no error path), and
whenever `n_segments ≥ 3` it lies in `[2, n_segments − 1]`. -/
theorem label_segments_n_labels_clamped (n e : ℕ) (h : 3 ≤ n) :
    label_segments_n_labels n e = min (n - 1) (max 2 e) ∧
    2 ≤ label_segments_n_labels n e ∧ label_segments_n_labels n e ≤ n - 1 := by
  unfold label_segments_n_labels
  omega

/-- Witness for the amended C7 at `n_segments = 5`, estimate 9. -/
theorem label_segments_n_labels_clamped_witness :
    3 ≤ 5 ∧
    (label_segments_n_labels 5 9 = min (5 - 1) (max 2 9) ∧
     2 ≤ label_segments_n_labels 5 9 ∧ label_segments_n_labels 5 9 ≤ 5 - 1) :=
  ⟨by decide, label_segments_n_labels_clamped 5 9 (by decide)⟩

/-- `np.mean` of a list of reals. -/
noncomputable def npMean (l : List ℝ) : ℝ := l.sum / l.length

/-- `np.var(·, ddof=1)`: sample variance, centered sum of squares divided
by `n - 1`. -/
noncomputable def npVar (l : List ℝ) : ℝ :=
  (l.map (fun v => (v - npMean l) ^ 2)).sum / ((l.length : ℝ) - 1)

/-- `gaussian_cost(X)` for a `d × n` matrix given as `d` rows of length `n`:
`0` when `n < 2`, else
`-0.5·d·n·log(2π) - 0.5·(n-1)·Σ_j np.var(row j, ddof=1)`. -/
noncomputable def gaussian_cost (X : List (List ℝ)) : ℝ :=
  let d : ℕ := X.length
  let n : ℕ := (X.headD []).length
  if n < 2 then 0
  else -0.5 * d * n * Real.log (2 * Real.pi)
    - 0.5 * ((n : ℝ) - 1) * (X.map npVar).sum

/-- The column slice `X[:, s:e]` of a row-major matrix. -/
def colSlice (X : List (List ℝ)) (s e : ℕ) : List (List ℝ) :=
  X.map (fun row => (row.drop s).take (e - s))

/-- `clustering_cost(X, boundaries)`:
`-2·Σ gaussian_cost(X[:, start:end]) / n + 2·(d·k)` over consecutive
boundary pairs, with `k = len(boundaries) - 1`. -/
noncomputable def clustering_cost (X : List (List ℝ)) (boundaries : List ℕ) : ℝ :=
  let k : ℝ := (boundaries.length : ℝ) - 1
  let d : ℝ := (X.length : ℝ)
  let n : ℝ := ((X.headD []).length : ℝ)
  let segCosts := (boundaries.zip boundaries.tail).map
    (fun se => gaussian_cost (colSlice X se.1 se.2));
  -2 * segCosts.sum / n + 2 * (d * k)

/-- Modelled from the spec's words, for refinement comparison: "for each
segment, compute the average per-sample log-likelihood under a
diagonal-covariance Gaussian fit to that segment's own sample variance
(ddof=1; segments of length < 2 contribute zero cost)": the
log-likelihood of the segment's `n` samples under `N(mean, diag(var))`,
divided by `n`. -/
noncomputable def spec_segment_avg_loglik (X : List (List ℝ)) : ℝ :=
  let n : ℕ := (X.headD []).length
  if n < 2 then 0
  else (X.map (fun row =>
      -0.5 * (n : ℝ) * Real.log (2 * Real.pi * npVar row)
      - (row.map (fun v => (v - npMean row) ^ 2)).sum / (2 * npVar row))).sum / (n : ℝ)

/-- Modelled from the spec's words, for refinement comparison:
"Total cost = −2·Σ(segment log-likelihoods)/N + 2·D·k". -/
noncomputable def spec_clustering_cost (X : List (List ℝ)) (boundaries : List ℕ) : ℝ :=
  let k : ℝ := (boundaries.length : ℝ) - 1
  let d : ℝ := (X.length : ℝ)
  let n : ℝ := ((X.headD []).length : ℝ)
  let segLL := (boundaries.zip boundaries.tail).map
    (fun se => spec_segment_avg_loglik (colSlice X se.1 se.2));
  -2 * segLL.sum / n + 2 * (d * k)

/-- The amended per-segment contribution: the total (not averaged)
log-likelihood of the mean-centered segment under a standard
unit-variance diagonal normal,
`-0.5·d·n·log(2π) - 0.5·Σ_j Σ_i (x_{j,i} - mean_j)²`, zero for segments
with fewer than two samples. -/
noncomputable def segment_centered_std_loglik (X : List (List ℝ)) : ℝ :=
  let d : ℕ := X.length
  let n : ℕ := (X.headD []).length
  if n < 2 then 0
  else -0.5 * d * n * Real.log (2 * Real.pi)
    - 0.5 * (X.map (fun row => (row.map (fun v => (v - npMean row) ^ 2)).sum)).sum

/-- The amended total cost, built from `segment_centered_std_loglik` the
same way the spec's formula is built from its per-segment term. -/
noncomputable def amended_clustering_cost (X : List (List ℝ)) (boundaries : List ℕ) : ℝ :=
  let k : ℝ := (boundaries.length : ℝ) - 1
  let d : ℝ := (X.length : ℝ)
  let n : ℝ := ((X.headD []).length : ℝ)
  let segLL := (boundaries.zip boundaries.tail).map
    (fun se => segment_centered_std_loglik (colSlice X se.1 se.2));
  -2 * segLL.sum / n + 2 * (d * k)

theorem gaussian_cost_eq_centered (X : List (List ℝ))
    (hrect : ∀ row ∈ X, row.length = (X.headD []).length) :
    gaussian_cost X = segment_centered_std_loglik X := by
  simp only [gaussian_cost, segment_centered_std_loglik]
  by_cases hn : (X.headD []).length < 2
  · rw [if_pos hn, if_pos hn]
  · rw [if_neg hn, if_neg hn]
    have h2 : (2 : ℝ) ≤ ((X.headD []).length : ℝ) := by
      exact_mod_cast Nat.not_lt.mp hn
    have hne : ((X.headD []).length : ℝ) - 1 ≠ 0 := by linarith
    have key : (X.map (fun row => (((X.headD []).length : ℝ) - 1) * npVar row)).sum
        = (X.map (fun row => (row.map (fun v => (v - npMean row) ^ 2)).sum)).sum := by
      apply congrArg List.sum
      apply List.map_congr_left
      intro row hrow
      rw [npVar, hrect row hrow]
      rw [mul_comm]
      exact div_mul_cancel₀ _ hne
    congr 1
    rw [mul_assoc]
    congr 1
    rw [← key, List.sum_map_mul_left]

/-- C4 amended: the likelihood-penalized cost equals
`−2·(Σ over segments of that segment's contribution)/N + 2·D·k`, where each
segment's contribution is the total (not averaged) log-likelihood of the
mean-centered segment under a standard unit-variance diagonal normal,
`−0.5·d·n·log(2π) − 0.5·Σ_j Σ_i (x_{j,i} − mean_j)²` (equivalently
`−0.5·(n−1)·Σ_j var_j` with ddof = 1 sample variances), and every segment
of length < 2 contributes exactly zero. -/
theorem clustering_cost_eq_amended (X : List (List ℝ)) (boundaries : List ℕ)
    (hrect : ∀ row ∈ X, row.length = (X.headD []).length) :
    clustering_cost X boundaries = amended_clustering_cost X boundaries := by
  simp only [clustering_cost, amended_clustering_cost]
  have hseg : ∀ se ∈ boundaries.zip boundaries.tail,
      gaussian_cost (colSlice X se.1 se.2)
        = segment_centered_std_loglik (colSlice X se.1 se.2) := by
    intro se _
    apply gaussian_cost_eq_centered
    intro row hrow
    cases X with
    | nil => simp [colSlice] at hrow
    | cons r0 t =>
      obtain ⟨r, hr, rfl⟩ := List.mem_map.mp hrow
      have h1 : r.length = r0.length := by simpa using hrect r hr
      simp [colSlice, h1]
  have hmaps : ((boundaries.zip boundaries.tail).map
      (fun se => gaussian_cost (colSlice X se.1 se.2))).sum
      = ((boundaries.zip boundaries.tail).map
      (fun se => segment_centered_std_loglik (colSlice X se.1 se.2))).sum := by
    exact congrArg List.sum (List.map_congr_left hseg)
  rw [hmaps]

/-- Witness for the amended C4 on the 2×2 matrix `[[0, 2], [1, 3]]` with
boundaries `[0, 1, 2]`. -/
theorem clustering_cost_eq_amended_witness :
    (∀ row ∈ ([[0, 2], [1, 3]] : List (List ℝ)),
      row.length = (([[0, 2], [1, 3]] : List (List ℝ)).headD []).length) ∧
    clustering_cost [[0, 2], [1, 3]] [0, 1, 2]
      = amended_clustering_cost [[0, 2], [1, 3]] [0, 1, 2] := by
  have h : ∀ row ∈ ([[0, 2], [1, 3]] : List (List ℝ)),
      row.length = (([[0, 2], [1, 3]] : List (List ℝ)).headD []).length := by
    intro row hrow
    rcases List.mem_cons.mp hrow with rfl | hrow
    · rfl
    · rcases List.mem_cons.mp hrow with rfl | hrow
      · rfl
      · simp at hrow
  exact ⟨h, clustering_cost_eq_amended [[0, 2], [1, 3]] [0, 1, 2] h⟩

/-- C4 counterexample: on the 1×2 matrix `[[0, 2]]` with boundaries
`[0, 2]` the code's cost is `log(2π) + 3`, while the claimed formula
(average per-sample log-likelihood under the fitted diagonal Gaussian)
gives `(log(2π·2) + 1/2)/2 + 2`; the two differ by `log(π)/2 + 3/4 > 0`. -/
theorem clustering_cost_ne_spec :
    clustering_cost [[0, 2]] [0, 2] ≠ spec_clustering_cost [[0, 2]] [0, 2] := by
  have hπ : (0 : ℝ) < Real.pi := Real.pi_pos
  have hlogπ : 0 < Real.log Real.pi := Real.log_pos (by linarith [Real.pi_gt_three])
  have hvar : npVar [0, 2] = 2 := by
    simp [npVar, npMean]
    norm_num
  have hcode : clustering_cost [[0, 2]] [0, 2] = Real.log (2 * Real.pi) + 3 := by
    simp [clustering_cost, gaussian_cost, colSlice, hvar]
    ring
  have hspec : spec_clustering_cost [[0, 2]] [0, 2]
      = (Real.log (2 * Real.pi * 2) + 1 / 2) / 2 + 2 := by
    simp [spec_clustering_cost, spec_segment_avg_loglik, colSlice, hvar, npMean]
    norm_num
    ring
  rw [hcode, hspec]
  have hsplit : Real.log (2 * Real.pi * 2)
      = Real.log 2 + Real.log Real.pi + Real.log 2 := by
    rw [Real.log_mul (by positivity) (by norm_num),
      Real.log_mul (by norm_num) (ne_of_gt hπ)]
  have hsplit2 : Real.log (2 * Real.pi) = Real.log 2 + Real.log Real.pi :=
    Real.log_mul (by norm_num) (ne_of_gt hπ)
  rw [hsplit, hsplit2]
  intro hEq
  nlinarith [hlogπ]

instance : DecidableRel (fun (a b : ℚ × List ℚ) => a.1 ≤ b.1) :=
  fun a b => inferInstanceAs (Decidable (a.1 ≤ b.1))

instance : IsTotal (ℚ × List ℚ) (fun a b => a.1 ≤ b.1) :=
  ⟨fun a b => le_total a.1 b.1⟩

instance : IsTrans (ℚ × List ℚ) (fun a b => a.1 ≤ b.1) :=
  ⟨fun _ _ _ h1 h2 => le_trans h1 h2⟩

/-- `laplacian_eigenvectors(L, k)` on the list of (real part of
eigenvalue, eigenvector) pairs returned by the `scipy.linalg.eig` oracle
for an `N × N` Laplacian: sort ascending by eigenvalue, drop the bottom
eigenvector, truncate to `k` columns or zero-pad up to `k`, and transpose
— i.e. the rows of the `k × N` result `e_vecs[:, :k].T`. -/
def laplacian_eigenvectors (pairs : List (ℚ × List ℚ)) (k : ℕ) : List (List ℚ) :=
  let sorted := pairs.insertionSort (fun a b => a.1 ≤ b.1)
  let vecs := (sorted.map Prod.snd).drop 1
  vecs.take k ++ List.replicate (k - vecs.length) (List.replicate pairs.length 0)

/-- C5: for every list of `N ≥ 2` eigenpairs of an `N × N` Laplacian (each
eigenvector of length `N`) and every target size `k_rep`, the result has
exactly `k_rep` rows, each of length `N`; the eigenvalues are sorted
ascending, and after dropping the first (trivial) eigenvector the rows are
the first `k_rep` remaining eigenvectors when at least `k_rep` remain, and
otherwise all of them followed by all-zero padding rows. -/
theorem laplacian_eigenvectors_spec (pairs : List (ℚ × List ℚ)) (k : ℕ)
    (hvec : ∀ p ∈ pairs, p.2.length = pairs.length) (hN : 2 ≤ pairs.length) :
    (laplacian_eigenvectors pairs k).length = k ∧
    (∀ r ∈ laplacian_eigenvectors pairs k, r.length = pairs.length) ∧
    List.Sorted (· ≤ ·)
      ((pairs.insertionSort (fun a b => a.1 ≤ b.1)).map Prod.fst) ∧
    (k ≤ pairs.length - 1 →
      laplacian_eigenvectors pairs k
        = (((pairs.insertionSort (fun a b => a.1 ≤ b.1)).map Prod.snd).drop 1).take k) ∧
    (pairs.length - 1 < k →
      laplacian_eigenvectors pairs k
        = ((pairs.insertionSort (fun a b => a.1 ≤ b.1)).map Prod.snd).drop 1
          ++ List.replicate (k - (pairs.length - 1)) (List.replicate pairs.length 0)) := by
  have hperm := List.perm_insertionSort (fun (a b : ℚ × List ℚ) => a.1 ≤ b.1) pairs
  have hslen : (pairs.insertionSort (fun a b => a.1 ≤ b.1)).length = pairs.length :=
    hperm.length_eq
  have hvlen : (((pairs.insertionSort (fun a b => a.1 ≤ b.1)).map Prod.snd).drop 1).length
      = pairs.length - 1 := by
    rw [List.length_drop, List.length_map, hslen]
  refine ⟨?_, ?_, ?_, ?_, ?_⟩
  · simp only [laplacian_eigenvectors, List.length_append, List.length_take,
      List.length_replicate, hvlen]
    omega
  · intro r hr
    simp only [laplacian_eigenvectors, List.mem_append] at hr
    rcases hr with hr | hr
    · have hr2 := List.mem_of_mem_drop (List.mem_of_mem_take hr)
      obtain ⟨p, hp, rfl⟩ := List.mem_map.mp hr2
      exact hvec p (hperm.mem_iff.mp hp)
    · rw [List.eq_of_mem_replicate hr]
      exact List.length_replicate _ _
  · have hs := List.sorted_insertionSort (fun (a b : ℚ × List ℚ) => a.1 ≤ b.1) pairs
    exact List.pairwise_map.mpr hs
  · intro hk
    simp only [laplacian_eigenvectors]
    have : k - (((pairs.insertionSort (fun a b => a.1 ≤ b.1)).map Prod.snd).drop 1).length
        = 0 := by
      rw [hvlen]
      omega
    rw [this, List.replicate_zero, List.append_nil]
  · intro hk
    simp only [laplacian_eigenvectors]
    rw [List.take_of_length_le (by rw [hvlen]; omega), hvlen]

/-- Witness for C5: two eigenpairs (out of ascending order) with
eigenvectors of length 2, target size `k_rep = 3`. -/
theorem laplacian_eigenvectors_spec_witness :
    (∀ p ∈ ([((1 : ℚ), ([0, 0] : List ℚ)), ((0 : ℚ), [1, 2])] : List (ℚ × List ℚ)),
      p.2.length = ([((1 : ℚ), ([0, 0] : List ℚ)), ((0 : ℚ), [1, 2])] : List (ℚ × List ℚ)).length) ∧
    2 ≤ ([((1 : ℚ), ([0, 0] : List ℚ)), ((0 : ℚ), [1, 2])] : List (ℚ × List ℚ)).length ∧
    ((laplacian_eigenvectors [((1 : ℚ), [0, 0]), ((0 : ℚ), [1, 2])] 3).length = 3 ∧
     (∀ r ∈ laplacian_eigenvectors [((1 : ℚ), [0, 0]), ((0 : ℚ), [1, 2])] 3,
       r.length = ([((1 : ℚ), ([0, 0] : List ℚ)), ((0 : ℚ), [1, 2])] : List (ℚ × List ℚ)).length) ∧
     List.Sorted (· ≤ ·)
       ((([((1 : ℚ), ([0, 0] : List ℚ)), ((0 : ℚ), [1, 2])] : List (ℚ × List ℚ)).insertionSort
         (fun a b => a.1 ≤ b.1)).map Prod.fst) ∧
     (3 ≤ ([((1 : ℚ), ([0, 0] : List ℚ)), ((0 : ℚ), [1, 2])] : List (ℚ × List ℚ)).length - 1 →
       laplacian_eigenvectors [((1 : ℚ), [0, 0]), ((0 : ℚ), [1, 2])] 3
         = (((([((1 : ℚ), ([0, 0] : List ℚ)), ((0 : ℚ), [1, 2])] : List (ℚ × List ℚ)).insertionSort
             (fun a b => a.1 ≤ b.1)).map Prod.snd).drop 1).take 3) ∧
     (([((1 : ℚ), ([0, 0] : List ℚ)), ((0 : ℚ), [1, 2])] : List (ℚ × List ℚ)).length - 1 < 3 →
       laplacian_eigenvectors [((1 : ℚ), [0, 0]), ((0 : ℚ), [1, 2])] 3
         = ((([((1 : ℚ), ([0, 0] : List ℚ)), ((0 : ℚ), [1, 2])] : List (ℚ × List ℚ)).insertionSort
             (fun a b => a.1 ≤ b.1)).map Prod.snd).drop 1
           ++ List.replicate (3 - (([((1 : ℚ), ([0, 0] : List ℚ)), ((0 : ℚ), [1, 2])] : List (ℚ × List ℚ)).length - 1))
             (List.replicate ([((1 : ℚ), ([0, 0] : List ℚ)), ((0 : ℚ), [1, 2])] : List (ℚ × List ℚ)).length 0))) :=
  ⟨by decide, by decide,
    laplacian_eigenvectors_spec [((1 : ℚ), [0, 0]), ((0 : ℚ), [1, 2])] 3
      (by decide) (by decide)⟩

/-- `SIGMA_MIN = 1e-4`. -/
noncomputable def SIGMA_MIN : ℝ := 1 / 10000

/-- `np.median` of a list of reals: the middle element of the sorted list,
or the average of the two middle elements for even length. -/
noncomputable def npMedian (l : List ℝ) : ℝ :=
  let s := l.insertionSort (· ≤ ·)
  if l.length % 2 = 1 then s.getD (l.length / 2) 0
  else (s.getD (l.length / 2 - 1) 0 + s.getD (l.length / 2) 0) / 2

/-- The squared pairwise distances `scipy.spatial.distance.cdist(X, X)**2`
(squared euclidean). -/
noncomputable def sqdist {n d : ℕ} (x : Fin n → Fin d → ℝ) (i j : Fin n) : ℝ :=
  ∑ l, (x i l - x j l) ^ 2

/-- `np.maximum(np.sort(D, axis=1)[:, 1], SIGMA_MIN)`: each point's
squared distance to its nearest other point (the second-smallest entry of
its distance row), floored at `SIGMA_MIN`. -/
noncomputable def nearestSq {n d : ℕ} (x : Fin n → Fin d → ℝ) (i : Fin n) : ℝ :=
  max (((List.ofFn (fun j => sqdist x i j)).insertionSort (· ≤ ·)).getD 1 0) SIGMA_MIN

/-- The default global kernel bandwidth `sigma = np.median(Dsort)`. -/
noncomputable def bandwidth {n d : ℕ} (x : Fin n → Fin d → ℝ) : ℝ :=
  npMedian (List.ofFn (fun i => nearestSq x i))

/-- `label_build_affinity(X, k)` on its default (global-bandwidth) path:
`A = exp(-0.5·D/sigma) * (KNN + eye(n))`.  The mutual-k-nearest-neighbour
mask built by `librosa.segment.recurrence_matrix(X.T, k=min(k, n-1),
sym=True)` is the oracle parameter `recurrence`; the self-loop `np.eye(n)`
is added as in the code before the element-wise product. -/
noncomputable def label_build_affinity {n d : ℕ} (x : Fin n → Fin d → ℝ) (k : ℕ)
    (recurrence : ℕ → Fin n → Fin n → ℝ) (i j : Fin n) : ℝ :=
  Real.exp (-(0.5) * (sqdist x i j / bandwidth x))
    * (recurrence (min k (n - 1)) i j + (if i = j then 1 else 0))

/-- Row sums of an `n × n` matrix. -/
noncomputable def rowSum {n : ℕ} (A : Fin n → Fin n → ℝ) (i : Fin n) : ℝ :=
  ∑ j, A i j

/-- `rw_laplacian(A) = eye(n) − diag(row sums ** −1)·A`. -/
noncomputable def rw_laplacian {n : ℕ} (A : Fin n → Fin n → ℝ) (i j : Fin n) : ℝ :=
  (if i = j then 1 else 0) - (rowSum A i)⁻¹ * A i j

/-- The graph handed to `rw_laplacian` inside `repetition`:
`M = Rf + np.eye(N, k=1) + np.eye(N, k=-1)`, where `Rf` is the denoised,
symmetrized recurrence matrix (an oracle, element-wise non-negative). -/
noncomputable def repetition_graph {N : ℕ} (Rf : Fin N → Fin N → ℝ) (i j : Fin N) : ℝ :=
  Rf i j + (if (j : ℕ) = (i : ℕ) + 1 then 1 else 0)
    + (if (i : ℕ) = (j : ℕ) + 1 then 1 else 0)

theorem sqdist_self {n d : ℕ} (x : Fin n → Fin d → ℝ) (i : Fin n) :
    sqdist x i i = 0 := by
  unfold sqdist
  simp

theorem sqdist_comm {n d : ℕ} (x : Fin n → Fin d → ℝ) (i j : Fin n) :
    sqdist x i j = sqdist x j i := by
  unfold sqdist
  apply Finset.sum_congr rfl
  intro l _
  ring

/-- C8: on the default (global-bandwidth) path, for every point set with
`n ≥ 2` and every neighbour count `k` (clamped internally to `n − 1`),
the affinity matrix is symmetric and element-wise non-negative, given any
symmetric non-negative mutual-kNN oracle mask. -/
theorem label_build_affinity_symm_nonneg {n d : ℕ} (x : Fin n → Fin d → ℝ) (k : ℕ)
    (recurrence : ℕ → Fin n → Fin n → ℝ) (hn : 2 ≤ n)
    (hsym : ∀ k' i j, recurrence k' i j = recurrence k' j i)
    (hnn : ∀ k' i j, 0 ≤ recurrence k' i j) :
    (∀ i j, label_build_affinity x k recurrence i j
      = label_build_affinity x k recurrence j i) ∧
    (∀ i j, 0 ≤ label_build_affinity x k recurrence i j) := by
  constructor
  · intro i j
    unfold label_build_affinity
    rw [sqdist_comm x i j, hsym (min k (n - 1)) i j]
    by_cases hij : i = j
    · rw [hij]
    · rw [if_neg hij, if_neg (Ne.symm hij)]
  · intro i j
    unfold label_build_affinity
    apply mul_nonneg (Real.exp_nonneg _)
    have h1 := hnn (min k (n - 1)) i j
    by_cases hij : i = j
    · rw [if_pos hij]
      linarith
    · rw [if_neg hij]
      linarith

/-- Witness for C8: two points on the line, one feature dimension,
`k = 3`, constant-one recurrence mask. -/
theorem label_build_affinity_symm_nonneg_witness :
    2 ≤ 2 ∧
    (∀ (k' : ℕ) (i j : Fin 2),
      (fun (_ : ℕ) (_ _ : Fin 2) => (1 : ℝ)) k' i j
        = (fun (_ : ℕ) (_ _ : Fin 2) => (1 : ℝ)) k' j i) ∧
    (∀ (k' : ℕ) (i j : Fin 2),
      0 ≤ (fun (_ : ℕ) (_ _ : Fin 2) => (1 : ℝ)) k' i j) ∧
    ((∀ i j, label_build_affinity (fun (i : Fin 2) (_ : Fin 1) => (i.val : ℝ)) 3
        (fun _ _ _ => (1 : ℝ)) i j
      = label_build_affinity (fun (i : Fin 2) (_ : Fin 1) => (i.val : ℝ)) 3
        (fun _ _ _ => (1 : ℝ)) j i) ∧
     (∀ i j, 0 ≤ label_build_affinity (fun (i : Fin 2) (_ : Fin 1) => (i.val : ℝ)) 3
        (fun _ _ _ => (1 : ℝ)) i j)) :=
  ⟨by norm_num, fun _ _ _ => rfl, fun _ _ _ => by norm_num,
    label_build_affinity_symm_nonneg (fun (i : Fin 2) (_ : Fin 1) => (i.val : ℝ)) 3
      (fun _ _ _ => (1 : ℝ)) (by norm_num) (fun _ _ _ => rfl) (fun _ _ _ => by norm_num)⟩

theorem label_build_affinity_diag {n d : ℕ} (x : Fin n → Fin d → ℝ) (k : ℕ)
    (recurrence : ℕ → Fin n → Fin n → ℝ)
    (hnn : ∀ k' i j, 0 ≤ recurrence k' i j) (i : Fin n) :
    1 ≤ label_build_affinity x k recurrence i i := by
  unfold label_build_affinity
  rw [sqdist_self x i, if_pos rfl]
  rw [zero_div, mul_zero, Real.exp_zero, one_mul]
  linarith [hnn (min k (n - 1)) i i]

/-- C10: `rw_laplacian` raises row sums to the power −1, and on both
matrices the program passes to it this inversion never divides by zero:
the affinity matrix from `label_build_affinity` has every diagonal entry
`≥ 1` (self-loop mask times the Gaussian kernel value `exp(0) = 1`) so
every one of its row sums is strictly positive, and the recurrence graph
inside `repetition` has a `+1/−1` temporal-chain edge in every row (for
`N ≥ 2`) so every one of its row sums is strictly positive too. -/
theorem rw_laplacian_inputs_row_sums_pos {n d N : ℕ} (x : Fin n → Fin d → ℝ) (k : ℕ)
    (recurrence : ℕ → Fin n → Fin n → ℝ) (Rf : Fin N → Fin N → ℝ)
    (hnn : ∀ k' i j, 0 ≤ recurrence k' i j)
    (hRf : ∀ i j, 0 ≤ Rf i j) (hN : 2 ≤ N) :
    (∀ i, 1 ≤ label_build_affinity x k recurrence i i) ∧
    (∀ i, 0 < rowSum (label_build_affinity x k recurrence) i) ∧
    (∀ i, 0 < rowSum (repetition_graph Rf) i) := by
  have hAnn : ∀ i j, 0 ≤ label_build_affinity x k recurrence i j := by
    intro i j
    unfold label_build_affinity
    apply mul_nonneg (Real.exp_nonneg _)
    have h1 := hnn (min k (n - 1)) i j
    by_cases hij : i = j
    · rw [if_pos hij]
      linarith
    · rw [if_neg hij]
      linarith
  refine ⟨label_build_affinity_diag x k recurrence hnn, ?_, ?_⟩
  · intro i
    have hle : label_build_affinity x k recurrence i i
        ≤ rowSum (label_build_affinity x k recurrence) i := by
      unfold rowSum
      exact Finset.single_le_sum (fun j _ => hAnn i j) (Finset.mem_univ i)
    have := label_build_affinity_diag x k recurrence hnn i
    linarith
  · intro i
    have hMnn : ∀ j, 0 ≤ repetition_graph Rf i j := by
      intro j
      unfold repetition_graph
      have h0 := hRf i j
      have ha : (0 : ℝ) ≤ if (j : ℕ) = (i : ℕ) + 1 then 1 else 0 := by
        split <;> norm_num
      have hb : (0 : ℝ) ≤ if (i : ℕ) = (j : ℕ) + 1 then 1 else 0 := by
        split <;> norm_num
      linarith
    have hone : ∃ j0 : Fin N, 1 ≤ repetition_graph Rf i j0 := by
      by_cases hi : (i : ℕ) + 1 < N
      · refine ⟨⟨(i : ℕ) + 1, hi⟩, ?_⟩
        unfold repetition_graph
        have h0 := hRf i ⟨(i : ℕ) + 1, hi⟩
        have hb : (0 : ℝ) ≤ if (i : ℕ) = ((⟨(i : ℕ) + 1, hi⟩ : Fin N) : ℕ) + 1
            then 1 else 0 := by
          split <;> norm_num
        rw [if_pos (show ((⟨(i : ℕ) + 1, hi⟩ : Fin N) : ℕ) = (i : ℕ) + 1 from rfl)]
        linarith
      · have hgt : 1 ≤ (i : ℕ) := by
          have := i.isLt
          omega
        have hlt : (i : ℕ) - 1 < N := by
          have := i.isLt
          omega
        refine ⟨⟨(i : ℕ) - 1, hlt⟩, ?_⟩
        unfold repetition_graph
        have h0 := hRf i ⟨(i : ℕ) - 1, hlt⟩
        have ha : (0 : ℝ) ≤ if ((⟨(i : ℕ) - 1, hlt⟩ : Fin N) : ℕ) = (i : ℕ) + 1
            then 1 else 0 := by
          split <;> norm_num
        have hcond : (i : ℕ) = ((⟨(i : ℕ) - 1, hlt⟩ : Fin N) : ℕ) + 1 := by
          show (i : ℕ) = (i : ℕ) - 1 + 1
          omega
        rw [if_pos hcond]
        linarith
    obtain ⟨j0, hentry⟩ := hone
    have hle : repetition_graph Rf i j0 ≤ rowSum (repetition_graph Rf) i := by
      unfold rowSum
      exact Finset.single_le_sum (fun j _ => hMnn j) (Finset.mem_univ j0)
    linarith

/-- Witness for C10: two points in one dimension, constant-one recurrence
mask, all-zero `Rf` over `N = 2` frames. -/
theorem rw_laplacian_inputs_row_sums_pos_witness :
    (∀ (k' : ℕ) (i j : Fin 2), 0 ≤ (fun (_ : ℕ) (_ _ : Fin 2) => (1 : ℝ)) k' i j) ∧
    (∀ (i j : Fin 2), 0 ≤ (fun (_ _ : Fin 2) => (0 : ℝ)) i j) ∧
    2 ≤ 2 ∧
    ((∀ i, 1 ≤ label_build_affinity (fun (i : Fin 2) (_ : Fin 1) => (i.val : ℝ)) 3
        (fun _ _ _ => (1 : ℝ)) i i) ∧
     (∀ i, 0 < rowSum (label_build_affinity (fun (i : Fin 2) (_ : Fin 1) => (i.val : ℝ)) 3
        (fun _ _ _ => (1 : ℝ))) i) ∧
     (∀ i, 0 < rowSum (repetition_graph (fun (_ _ : Fin 2) => (0 : ℝ))) i)) :=
  ⟨fun _ _ _ => by norm_num, fun _ _ => by norm_num, by norm_num,
    rw_laplacian_inputs_row_sums_pos (fun (i : Fin 2) (_ : Fin 1) => (i.val : ℝ)) 3
      (fun _ _ _ => (1 : ℝ)) (fun _ _ => (0 : ℝ))
      (fun _ _ _ => by norm_num) (fun _ _ => by norm_num) (by norm_num)⟩

end Segmenter
